import Mathlib

/- Verification of the up-cpp UUIDv8 identifier factory and the IpAddress
byte accessor.  The factory constants are taken from
src/include/uuid/UUIDv8Factory.h; the body of UUIDv8Factory::create is not
part of the sources (the header only declares it), so the state-transition
algorithm is modelled from the specification.  The IpAddress accessors are
taken from src/include/up-cpp/uri/tools/IpAddress.h. -/

namespace uprotocol

namespace uuid

/-- Allowable clock drift tolerance, from UUIDv8Factory.h:
clockDriftTolerance_ = 10000000. -/
def clockDriftTolerance_ : Nat := 10000000

/-- UUID version field, from UUIDv8Factory.h: version_ = 8L << 12
(4 bits 1000, occupying bits 48 through 51 of the UUID, i.e. bits 15..12 of
the high 64-bit half). -/
def version_ : Nat := 8 <<< 12

/-- UUID variant, from UUIDv8Factory.h: variant_ = 0x8000000000000000L
(2 bits 10 at the top of the low half). -/
def variant_ : Nat := 0x8000000000000000

/-- Mask for the random bits, from UUIDv8Factory.h:
randomMask_ = 0x3fffffffffffffffL. -/
def randomMask_ : Nat := 0x3fffffffffffffff

/-- Maximum value of the 12-bit counter, from UUIDv8Factory.h:
maxCount_ = 0xfff. -/
def maxCount_ : Nat := 0xfff

/-- Modelled from the spec: the Identifier (UUID) value, a 128-bit value
represented as two 64-bit halves msb and lsb (the UUID class itself lives in
uuid.h, which is not among the sources). -/
structure UUID where
  msb : Nat
  lsb : Nat
deriving DecidableEq, Repr

/-- Modelled from the spec: the Generator State of the factory
(spec section 3): the last timestamp used in a produced high half, the
counter for that timestamp, and the lazily initialized 62 random bits
(none while still uninitialized). -/
structure GenState where
  lastTimestampMs : Nat
  counter : Nat
  randomBits : Option Nat
deriving DecidableEq, Repr

/-- Modelled from the spec: packing of the high half
(spec section 4.1 step 5): (lastTimestampMs << 16) | version | counter,
as a 64-bit (mod 2^64) value.  version_ from the source header is already
the shifted constant 8 << 12. -/
def packHigh (ts cnt : Nat) : Nat :=
  ((ts <<< 16) ||| version_ ||| cnt) % 2 ^ 64

/-- Modelled from the spec: packing of the low half
(spec section 4.1 step 6): variant | (randomBits & randomMask), as a
64-bit (mod 2^64) value. -/
def packLow (rnd : Nat) : Nat :=
  (variant_ ||| (rnd &&& randomMask_)) % 2 ^ 64

/-- Modelled from the spec: the clock-comparison step of create
(spec section 4.1 step 3).  Returns the pre-rollover pair
(lastTimestampMs, counter).  Clock advanced: take the new time and reset
the counter.  Same tick: increment the counter.  Clock regressed within
the drift tolerance: treat as the same tick (increment).  Clock regressed
beyond tolerance: keep the logical time, never move backward, and
increment the counter. -/
def tick (s : GenState) (nowMs : Nat) : Nat × Nat :=
  if s.lastTimestampMs < nowMs then
    (nowMs, 0)
  else if nowMs = s.lastTimestampMs then
    (s.lastTimestampMs, s.counter + 1)
  else if s.lastTimestampMs - nowMs ≤ clockDriftTolerance_ then
    (s.lastTimestampMs, s.counter + 1)
  else
    (s.lastTimestampMs, s.counter + 1)

/-- Modelled from the spec: the counter-rollover step of create
(spec section 4.1 step 4): if the counter exceeds the 12-bit maximum,
perform a logical tick advance (timestamp + 1, counter 0). -/
def rollover (tc : Nat × Nat) : Nat × Nat :=
  if maxCount_ < tc.2 then (tc.1 + 1, 0) else tc

/-- Modelled from the spec: the body of UUIDv8Factory::create
(spec section 4.1; the header only declares create).  Inputs are the two
external capabilities sampled for this call: the clock reading nowMs and
the 62-bit random draw rnd (used only if randomBits is still
uninitialized, step 1).  Returns the new generator state and the created
identifier. -/
def create (s : GenState) (nowMs rnd : Nat) : GenState × UUID :=
  let r := s.randomBits.getD rnd
  let tc := rollover (tick s nowMs)
  ({ lastTimestampMs := tc.1, counter := tc.2, randomBits := some r },
   { msb := packHigh tc.1 tc.2, lsb := packLow r })

/-- Modelled from the spec: a sequence of create calls under the
mutual-exclusion discipline: the calls are serialized, each one sampling
its own clock reading and random draw from the input list. -/
def runCreates : GenState → List (Nat × Nat) → GenState × List UUID
  | s, [] => (s, [])
  | s, p :: rest =>
    ((runCreates (create s p.1 p.2).1 rest).1,
     (create s p.1 p.2).2 :: (runCreates (create s p.1 p.2).1 rest).2)

/-- Decoding the 48-bit timestamp field from the high half. -/
def unix_ts_ms (high : Nat) : Nat := high >>> 16

/-- Decoding the 4-bit version field (bits 15..12) from the high half. -/
def verField (high : Nat) : Nat := (high >>> 12) &&& 0xf

/-- Decoding the 12-bit counter field (bits 11..0) from the high half. -/
def counterField (high : Nat) : Nat := high &&& 0xfff

/-- Decoding the 2-bit variant field (bits 63..62) from the low half. -/
def varField (low : Nat) : Nat := low >>> 62

/-- Decoding the 62-bit random field (bits 61..0) from the low half. -/
def randField (low : Nat) : Nat := low &&& randomMask_

/-- Bitwise or of a shifted value with a value fitting below the shift is
addition: the fields do not overlap. -/
theorem mul_pow_lor_eq_add (m k b : Nat) (hb : b < 2 ^ k) :
    (m * 2 ^ k) ||| b = m * 2 ^ k + b := by
  apply Nat.eq_of_testBit_eq
  intro i
  rw [Nat.testBit_lor, ← Nat.shiftLeft_eq, Nat.testBit_shiftLeft]
  rcases Nat.lt_or_ge i k with hik | hik
  · have h1 : (decide (i ≥ k) && m.testBit (i - k)) = false := by
      simp [Nat.not_le.mpr hik]
    rw [h1, Bool.false_or]
    have h2 : (m <<< k + b) % 2 ^ k = b := by
      rw [Nat.shiftLeft_eq, Nat.mul_comm m (2 ^ k), Nat.mul_add_mod]
      exact Nat.mod_eq_of_lt hb
    calc b.testBit i = ((m <<< k + b) % 2 ^ k).testBit i := by rw [h2]
      _ = (decide (i < k) && (m <<< k + b).testBit i) := Nat.testBit_mod_two_pow _ _ _
      _ = (m <<< k + b).testBit i := by simp [hik]
  · have hb0 : b.testBit i = false :=
      Nat.testBit_lt_two_pow (lt_of_lt_of_le hb (Nat.pow_le_pow_right (by omega) hik))
    rw [hb0, Bool.or_false]
    have hd : (m <<< k + b) >>> k = m := by
      rw [Nat.shiftRight_eq_div_pow, Nat.shiftLeft_eq]
      rw [Nat.mul_comm m (2 ^ k), Nat.mul_add_div (Nat.pos_pow_of_pos k (by omega))]
      rw [Nat.div_eq_of_lt hb]
      omega
    have h3 : (m <<< k + b).testBit i = ((m <<< k + b) >>> k).testBit (i - k) := by
      rw [Nat.testBit_shiftRight]
      congr 1
      omega
    rw [h3, hd]
    simp [hik]

/-- Arithmetic form of the high-half packing when the counter is in its
12-bit range: the three fields occupy disjoint bit ranges. -/
theorem packHigh_eq (ts cnt : Nat) (h : cnt ≤ maxCount_) :
    packHigh ts cnt = (ts % 2 ^ 48) * 2 ^ 16 + 2 ^ 15 + cnt := by
  have hcnt : cnt ≤ 4095 := h
  have hv : (8 <<< 12 : Nat) = 1 * 2 ^ 15 := by norm_num [Nat.shiftLeft_eq]
  unfold packHigh version_
  rw [Nat.lor_assoc, hv, mul_pow_lor_eq_add 1 15 cnt (by omega)]
  rw [Nat.shiftLeft_eq, mul_pow_lor_eq_add ts 16 (1 * 2 ^ 15 + cnt) (by omega)]
  omega

/-- Arithmetic form of the low-half packing: the variant bits sit above
the 62 random bits. -/
theorem packLow_eq (rnd : Nat) : packLow rnd = 2 ^ 63 + rnd % 2 ^ 62 := by
  have hm : rnd &&& randomMask_ = rnd % 2 ^ 62 := by
    have h := Nat.and_pow_two_sub_one_eq_mod rnd 62
    unfold randomMask_
    norm_num at h ⊢
    exact h
  unfold packLow variant_
  rw [hm]
  have hv : (0x8000000000000000 : Nat) = 1 * 2 ^ 63 := by norm_num
  rw [hv, mul_pow_lor_eq_add 1 63 (rnd % 2 ^ 62) (by omega)]
  omega

/-- Decoding a packed high half recovers the (mod 2^48) timestamp, the
version constant 8, and the counter, for any timestamp and any in-range
counter. -/
theorem decode_packHigh_any (ts cnt : Nat) (h : cnt ≤ maxCount_) :
    unix_ts_ms (packHigh ts cnt) = ts % 2 ^ 48 ∧
    verField (packHigh ts cnt) = 8 ∧
    counterField (packHigh ts cnt) = cnt := by
  have hcnt : cnt ≤ 4095 := h
  rw [packHigh_eq ts cnt h]
  unfold unix_ts_ms verField counterField
  rw [Nat.shiftRight_eq_div_pow, Nat.shiftRight_eq_div_pow]
  have h4 : ∀ x : Nat, x &&& 0xf = x % 2 ^ 4 := by
    intro x
    have h := Nat.and_pow_two_sub_one_eq_mod x 4
    norm_num at h ⊢
    exact h
  have h12 : ∀ x : Nat, x &&& 0xfff = x % 2 ^ 12 := by
    intro x
    have h := Nat.and_pow_two_sub_one_eq_mod x 12
    norm_num at h ⊢
    exact h
  rw [h4, h12]
  refine ⟨?_, ?_, ?_⟩ <;> omega

/-- Decoding a packed low half recovers the variant bits 10 (value 2) and
the (mod 2^62) random value. -/
theorem decode_packLow (rnd : Nat) :
    varField (packLow rnd) = 2 ∧ randField (packLow rnd) = rnd % 2 ^ 62 := by
  rw [packLow_eq]
  unfold varField randField
  rw [Nat.shiftRight_eq_div_pow]
  have h62 : ∀ x : Nat, x &&& randomMask_ = x % 2 ^ 62 := by
    intro x
    have h := Nat.and_pow_two_sub_one_eq_mod x 62
    unfold randomMask_
    norm_num at h ⊢
    exact h
  rw [h62]
  constructor <;> omega

/-- The clock-comparison step collapses to a two-way case split: a strictly
advanced clock resets the counter, every other case (same tick, regression
within tolerance, regression beyond tolerance) keeps the logical timestamp
and increments the counter. -/
theorem tick_eq (s : GenState) (nowMs : Nat) :
    tick s nowMs =
      if s.lastTimestampMs < nowMs then (nowMs, 0)
      else (s.lastTimestampMs, s.counter + 1) := by
  unfold tick
  split_ifs <;> rfl

/-- The rollover step never lets the stored counter exceed its 12-bit
maximum. -/
theorem rollover_counter_le (tc : Nat × Nat) : (rollover tc).2 ≤ maxCount_ := by
  unfold rollover
  split_ifs with h
  · exact Nat.zero_le _
  · exact Nat.le_of_not_lt h

/-- Unfolding equation for create in terms of its steps. -/
theorem create_spec (s : GenState) (nowMs rnd : Nat) :
    create s nowMs rnd =
      ({ lastTimestampMs := (rollover (tick s nowMs)).1,
         counter := (rollover (tick s nowMs)).2,
         randomBits := some (s.randomBits.getD rnd) },
       { msb := packHigh (rollover (tick s nowMs)).1 (rollover (tick s nowMs)).2,
         lsb := packLow (s.randomBits.getD rnd) }) := rfl

/-- Single-step monotonicity and invariant preservation: from a state with
an in-range counter and timestamps safely inside 48 bits, one create call
strictly increases the packed high half, keeps the counter in range, moves
the stored timestamp to at most max(old, now) + 1, and the produced high
half is the packing of the new state. -/
theorem create_step (s : GenState) (nowMs rnd : Nat) (hc : s.counter ≤ maxCount_)
    (ht : s.lastTimestampMs + 1 < 2 ^ 48) (hn : nowMs < 2 ^ 48) :
    packHigh s.lastTimestampMs s.counter < (create s nowMs rnd).2.msb ∧
    (create s nowMs rnd).1.counter ≤ maxCount_ ∧
    ((create s nowMs rnd).1.lastTimestampMs ≤ s.lastTimestampMs + 1 ∨
      (create s nowMs rnd).1.lastTimestampMs = nowMs) ∧
    (create s nowMs rnd).2.msb =
      packHigh (create s nowMs rnd).1.lastTimestampMs (create s nowMs rnd).1.counter := by
  have hcnt : s.counter ≤ 4095 := hc
  rw [create_spec, tick_eq]
  by_cases hlt : s.lastTimestampMs < nowMs
  · have hro : rollover (nowMs, 0) = (nowMs, 0) := by
      unfold rollover maxCount_
      norm_num
    simp only [if_pos hlt, hro]
    refine ⟨?_, by simp [maxCount_], by right; trivial, by trivial⟩
    rw [packHigh_eq _ _ hc, packHigh_eq _ _ (by simp [maxCount_])]
    have h1 : s.lastTimestampMs % 2 ^ 48 = s.lastTimestampMs := Nat.mod_eq_of_lt (by omega)
    have h2 : nowMs % 2 ^ 48 = nowMs := Nat.mod_eq_of_lt hn
    rw [h1, h2]
    omega
  · simp only [if_neg hlt]
    by_cases hmax : maxCount_ < s.counter + 1
    · have hro : rollover (s.lastTimestampMs, s.counter + 1) = (s.lastTimestampMs + 1, 0) := by
        unfold rollover
        simp [hmax]
      simp only [hro]
      refine ⟨?_, by simp [maxCount_], by left; omega, by trivial⟩
      rw [packHigh_eq _ _ hc, packHigh_eq _ _ (by simp [maxCount_])]
      have h1 : s.lastTimestampMs % 2 ^ 48 = s.lastTimestampMs := Nat.mod_eq_of_lt (by omega)
      have h2 : (s.lastTimestampMs + 1) % 2 ^ 48 = s.lastTimestampMs + 1 := Nat.mod_eq_of_lt (by omega)
      rw [h1, h2]
      omega
    · have hro : rollover (s.lastTimestampMs, s.counter + 1) = (s.lastTimestampMs, s.counter + 1) := by
        unfold rollover
        simp [hmax]
      simp only [hro]
      have hc1 : s.counter + 1 ≤ maxCount_ := Nat.le_of_not_lt hmax
      refine ⟨?_, hc1, by left; omega, by trivial⟩
      rw [packHigh_eq _ _ hc, packHigh_eq _ _ hc1]
      omega

/-- A run of create calls produces exactly one identifier per call. -/
theorem runCreates_length (inputs : List (Nat × Nat)) : ∀ s : GenState,
    ((runCreates s inputs).2).length = inputs.length := by
  induction inputs with
  | nil => intro s; rfl
  | cons p rest ih =>
    intro s
    simp [runCreates, ih]

/-- Along a serialized run from a well-formed state, the packed high half of
the incoming state is strictly below every produced high half, and the
produced high halves are strictly increasing in call order. -/
theorem run_chain (inputs : List (Nat × Nat)) : ∀ s : GenState,
    s.counter ≤ maxCount_ →
    s.lastTimestampMs + inputs.length < 2 ^ 48 →
    (∀ p ∈ inputs, p.1 + inputs.length < 2 ^ 48) →
    List.Chain (· < ·) (packHigh s.lastTimestampMs s.counter)
      (((runCreates s inputs).2).map UUID.msb) := by
  induction inputs with
  | nil =>
    intro s _ _ _
    exact List.Chain.nil
  | cons p rest ih =>
    intro s hc hlen hin
    have hp := hin p (List.mem_cons_self p rest)
    simp only [List.length_cons] at hlen hp
    obtain ⟨h1, h2, h3, h4⟩ := create_step s p.1 p.2 hc (by omega) (by omega)
    simp only [runCreates, List.map_cons]
    apply List.Chain.cons h1
    rw [h4]
    apply ih (create s p.1 p.2).1 h2
    · rcases h3 with h3 | h3 <;> omega
    · intro q hq
      have := hin q (List.mem_cons_of_mem p hq)
      simp only [List.length_cons] at this
      omega

/-- Claim C1: for any two identifiers produced by the same factory instance in
call order (sequential create calls, serialized), the 64-bit high half of
the later identifier is strictly greater than the high half of the earlier
one, whenever the counter invariant holds initially and the clock values
keep the 48-bit timestamp field from overflowing. -/
theorem uuid_msb_strict_mono (s : GenState) (inputs : List (Nat × Nat))
    (hc : s.counter ≤ maxCount_)
    (hlen : s.lastTimestampMs + inputs.length < 2 ^ 48)
    (hin : ∀ p ∈ inputs, p.1 + inputs.length < 2 ^ 48) :
    List.Pairwise (· < ·) (((runCreates s inputs).2).map UUID.msb) :=
  (List.chain_iff_pairwise.mp (run_chain inputs s hc hlen hin)).of_cons

/-- Concrete run witnessing the monotonicity theorem: a fresh factory, two
calls in the same millisecond, then a call with a regressed clock. -/
theorem uuid_msb_strict_mono_witness :
    List.Pairwise (· < ·)
      (((runCreates ⟨0, 0, none⟩ [(100, 5), (100, 6), (50, 7)]).2).map UUID.msb) :=
  uuid_msb_strict_mono ⟨0, 0, none⟩ [(100, 5), (100, 6), (50, 7)]
    (by decide) (by decide) (by decide)

/-- Claim C9: the read-compare-update sequence of create is modelled as a single
atomic transaction (the serialization granted by the mutual-exclusion
discipline); under that serialization, any number of create calls - for
instance M threads each completing K calls, globally ordered by
completion - yield pairwise distinct, non-colliding high halves, one per
call. -/
theorem uuid_serialized_distinct (s : GenState) (inputs : List (Nat × Nat))
    (hc : s.counter ≤ maxCount_)
    (hlen : s.lastTimestampMs + inputs.length < 2 ^ 48)
    (hin : ∀ p ∈ inputs, p.1 + inputs.length < 2 ^ 48) :
    (((runCreates s inputs).2).map UUID.msb).Nodup ∧
    ((runCreates s inputs).2).length = inputs.length := by
  constructor
  · have hp := (List.chain_iff_pairwise.mp (run_chain inputs s hc hlen hin)).of_cons
    exact hp.imp (fun hlt => Nat.ne_of_lt hlt)
  · exact runCreates_length inputs s

/-- Concrete run witnessing the distinctness theorem: four serialized calls
with repeated and regressed clock readings still give four distinct high
halves. -/
theorem uuid_serialized_distinct_witness :
    (((runCreates ⟨0, 0, none⟩ [(7, 1), (7, 2), (7, 3), (3, 4)]).2).map UUID.msb).Nodup ∧
    ((runCreates ⟨0, 0, none⟩ [(7, 1), (7, 2), (7, 3), (3, 4)]).2).length = 4 :=
  uuid_serialized_distinct ⟨0, 0, none⟩ [(7, 1), (7, 2), (7, 3), (3, 4)]
    (by decide) (by decide) (by decide)

/-- Once the random bits are stored, every later call keeps them and packs
the same low half. -/
theorem run_lsb_some (inputs : List (Nat × Nat)) : ∀ (s : GenState) (r : Nat),
    s.randomBits = some r →
    ((runCreates s inputs).2).map UUID.lsb = List.replicate inputs.length (packLow r) ∧
    (runCreates s inputs).1.randomBits = some r := by
  induction inputs with
  | nil =>
    intro s r h
    exact ⟨rfl, h⟩
  | cons p rest ih =>
    intro s r h
    have h1 : (create s p.1 p.2).1.randomBits = some r := by
      rw [create_spec]
      simp [h]
    have h2 : (create s p.1 p.2).2.lsb = packLow r := by
      rw [create_spec]
      simp [h]
    obtain ⟨ih1, ih2⟩ := ih (create s p.1 p.2).1 r h1
    refine ⟨?_, by simpa [runCreates] using ih2⟩
    simp only [runCreates, List.map_cons, ih1, h2, List.length_cons]
    rw [List.replicate_succ]

/-- Claim C7: the 62-bit random value is drawn at most once, on the first call,
and the low half of every identifier produced by the factory instance is
the same packed value: the stored random bits if already initialized,
otherwise the draw sampled by the first call.  In particular no random
draw after the first call ever influences any identifier. -/
theorem uuid_random_stable (s : GenState) (inputs : List (Nat × Nat)) :
    ((runCreates s inputs).2).map UUID.lsb =
      List.replicate inputs.length
        (packLow (s.randomBits.getD ((inputs.headD (0, 0)).2))) := by
  cases inputs with
  | nil => rfl
  | cons p rest =>
    have h1 : (create s p.1 p.2).1.randomBits = some (s.randomBits.getD p.2) := by
      rw [create_spec]
    have h2 : (create s p.1 p.2).2.lsb = packLow (s.randomBits.getD p.2) := by
      rw [create_spec]
    obtain ⟨ih1, _⟩ := run_lsb_some rest (create s p.1 p.2).1 (s.randomBits.getD p.2) h1
    simp only [runCreates, List.map_cons, ih1, h2, List.headD_cons, List.length_cons]
    rw [List.replicate_succ]

/-- Claim C2: on a call where, after the clock comparison, the counter exceeds
the 12-bit maximum 4095 (here: a call in the same millisecond tick with the
counter already at 4095, i.e. the tick already served its 4096 counter
values 0..4095), the generator performs a logical tick advance: the stored
timestamp is incremented by 1 and the counter is reset to 0, and the
returned high half carries exactly lastTimestampMs + 1 and counter 0 -
never a repeated or wrapped counter value. -/
theorem uuid_counter_rollover (s : GenState) (nowMs rnd : Nat)
    (hnow : nowMs = s.lastTimestampMs) (hc : s.counter = maxCount_)
    (ht : s.lastTimestampMs + 1 < 2 ^ 48) :
    (create s nowMs rnd).1.lastTimestampMs = s.lastTimestampMs + 1 ∧
    (create s nowMs rnd).1.counter = 0 ∧
    unix_ts_ms (create s nowMs rnd).2.msb = s.lastTimestampMs + 1 ∧
    counterField (create s nowMs rnd).2.msb = 0 := by
  have hro : rollover (s.lastTimestampMs, s.counter + 1) = (s.lastTimestampMs + 1, 0) := by
    unfold rollover
    simp [hc]
  have htk : tick s nowMs = (s.lastTimestampMs, s.counter + 1) := by
    rw [tick_eq]
    simp [hnow]
  rw [create_spec, htk, hro]
  obtain ⟨d1, d2, d3⟩ := decode_packHigh_any (s.lastTimestampMs + 1) 0 (by simp [maxCount_])
  refine ⟨rfl, rfl, ?_, d3⟩
  rw [d1]
  omega

/-- Witness for the counter-rollover theorem at a concrete state: tick 5
with counter 4095 rolls over to tick 6 with counter 0. -/
theorem uuid_counter_rollover_witness :
    (create ⟨5, 4095, some 7⟩ 5 0).1.lastTimestampMs = 5 + 1 ∧
    (create ⟨5, 4095, some 7⟩ 5 0).1.counter = 0 ∧
    unix_ts_ms (create ⟨5, 4095, some 7⟩ 5 0).2.msb = 5 + 1 ∧
    counterField (create ⟨5, 4095, some 7⟩ 5 0).2.msb = 0 :=
  uuid_counter_rollover ⟨5, 4095, some 7⟩ 5 0 (by decide) (by decide) (by decide)

/-- Claim C3: a call whose clock reading regressed by no more than the configured
drift tolerance behaves exactly as the same-tick case: the call produces
the very same result a same-tick clock reading would, the counter is
incremented relative to the previous call, and the timestamp field of the
returned identifier is the unchanged stored timestamp. -/
theorem uuid_clock_regression_within_tolerance (s : GenState) (nowMs rnd : Nat)
    (hreg : nowMs < s.lastTimestampMs)
    (htol : s.lastTimestampMs - nowMs ≤ clockDriftTolerance_)
    (hc : s.counter < maxCount_)
    (ht : s.lastTimestampMs < 2 ^ 48) :
    create s nowMs rnd = create s s.lastTimestampMs rnd ∧
    (create s nowMs rnd).1.counter = s.counter + 1 ∧
    (create s nowMs rnd).1.lastTimestampMs = s.lastTimestampMs ∧
    unix_ts_ms (create s nowMs rnd).2.msb = s.lastTimestampMs := by
  have htk1 : tick s nowMs = (s.lastTimestampMs, s.counter + 1) := by
    rw [tick_eq]
    simp [Nat.not_lt.mpr (Nat.le_of_lt hreg)]
  have htk2 : tick s s.lastTimestampMs = (s.lastTimestampMs, s.counter + 1) := by
    rw [tick_eq]
    simp
  have hro : rollover (s.lastTimestampMs, s.counter + 1) = (s.lastTimestampMs, s.counter + 1) := by
    unfold rollover
    simp only [if_neg (by omega : ¬maxCount_ < s.counter + 1)]
  refine ⟨by rw [create_spec, create_spec, htk1, htk2], ?_, ?_, ?_⟩ <;>
    rw [create_spec, htk1, hro]
  obtain ⟨d1, _, _⟩ := decode_packHigh_any s.lastTimestampMs (s.counter + 1) (by omega)
  rw [d1]
  omega

/-- Witness for the within-tolerance regression theorem: the clock reports
95 while the stored timestamp is 100 (a 5 ms backward jump, tolerance
10000000). -/
theorem uuid_clock_regression_within_tolerance_witness :
    create ⟨100, 3, some 9⟩ 95 1 = create ⟨100, 3, some 9⟩ 100 1 ∧
    (create ⟨100, 3, some 9⟩ 95 1).1.counter = 3 + 1 ∧
    (create ⟨100, 3, some 9⟩ 95 1).1.lastTimestampMs = 100 ∧
    unix_ts_ms (create ⟨100, 3, some 9⟩ 95 1).2.msb = 100 :=
  uuid_clock_regression_within_tolerance ⟨100, 3, some 9⟩ 95 1
    (by decide) (by decide) (by decide) (by decide)

/-- Claim C4: even when the clock reading is arbitrarily far in the past
(including regressions beyond the tolerance), the comparison step keeps the
stored logical timestamp (never moves it backward) and increments the
counter, the stored timestamp after the call is at least the previous one,
and the timestamp field of the returned identifier is at least the
timestamp field of the previous call's identifier. -/
theorem uuid_clock_regression_never_backward (s : GenState) (nowMs rnd : Nat)
    (hreg : nowMs < s.lastTimestampMs)
    (hc : s.counter ≤ maxCount_)
    (ht : s.lastTimestampMs + 1 < 2 ^ 48) :
    tick s nowMs = (s.lastTimestampMs, s.counter + 1) ∧
    s.lastTimestampMs ≤ (create s nowMs rnd).1.lastTimestampMs ∧
    unix_ts_ms (packHigh s.lastTimestampMs s.counter) ≤
      unix_ts_ms (create s nowMs rnd).2.msb := by
  have htk : tick s nowMs = (s.lastTimestampMs, s.counter + 1) := by
    rw [tick_eq]
    simp [Nat.not_lt.mpr (Nat.le_of_lt hreg)]
  refine ⟨htk, ?_, ?_⟩ <;> rw [create_spec, htk] <;> unfold rollover <;> split_ifs with hm
  · simp
  · simp
  · obtain ⟨d1, _, _⟩ := decode_packHigh_any s.lastTimestampMs s.counter hc
    obtain ⟨d2, _, _⟩ := decode_packHigh_any (s.lastTimestampMs + 1) 0 (by simp [maxCount_])
    simp only []
    rw [d1, d2]
    omega
  · obtain ⟨d1, _, _⟩ := decode_packHigh_any s.lastTimestampMs s.counter hc
    obtain ⟨d2, _, _⟩ := decode_packHigh_any s.lastTimestampMs (s.counter + 1) (by omega)
    simp only []
    rw [d1, d2]

/-- When the incoming timestamps are safely inside 48 bits, the stored
timestamp after one call is too. -/
theorem create_last_lt (s : GenState) (nowMs rnd : Nat)
    (ht : s.lastTimestampMs + 1 < 2 ^ 48) (hn : nowMs < 2 ^ 48) :
    (create s nowMs rnd).1.lastTimestampMs < 2 ^ 48 := by
  rw [create_spec, tick_eq]
  by_cases hlt : s.lastTimestampMs < nowMs
  · simp only [if_pos hlt]
    unfold rollover
    split_ifs <;> simp <;> omega
  · simp only [if_neg hlt]
    unfold rollover
    split_ifs <;> simp <;> omega

/-- Claim C5: every identifier returned by create is packed exactly as the spec
formulas state: the high half is
(lastTimestampMs << 16) | version | counter (mod 2^64) for the stored
state of that call, with the 4-bit version constant 8 in bits 15..12, and
the low half is variant | (randomBits & randomMask) (mod 2^64) with the
2-bit variant 10 (value 2) in bits 63..62; no field mask leaks into an
adjacent field: decoding each field recovers exactly the packed value. -/
theorem uuid_packing_layout (s : GenState) (nowMs rnd : Nat)
    (ht : s.lastTimestampMs + 1 < 2 ^ 48) (hn : nowMs < 2 ^ 48) :
    (create s nowMs rnd).2.msb =
      (((create s nowMs rnd).1.lastTimestampMs <<< 16) ||| version_ |||
        (create s nowMs rnd).1.counter) % 2 ^ 64 ∧
    (create s nowMs rnd).2.lsb =
      (variant_ ||| (s.randomBits.getD rnd &&& randomMask_)) % 2 ^ 64 ∧
    verField (create s nowMs rnd).2.msb = 8 ∧
    varField (create s nowMs rnd).2.lsb = 2 ∧
    unix_ts_ms (create s nowMs rnd).2.msb = (create s nowMs rnd).1.lastTimestampMs ∧
    counterField (create s nowMs rnd).2.msb = (create s nowMs rnd).1.counter ∧
    randField (create s nowMs rnd).2.lsb = s.randomBits.getD rnd % 2 ^ 62 := by
  have hlast := create_last_lt s nowMs rnd ht hn
  have hcnt : (create s nowMs rnd).1.counter ≤ maxCount_ := by
    rw [create_spec]
    exact rollover_counter_le (tick s nowMs)
  have hmsb : (create s nowMs rnd).2.msb =
      packHigh (create s nowMs rnd).1.lastTimestampMs (create s nowMs rnd).1.counter := by
    rw [create_spec]
  have hlsb : (create s nowMs rnd).2.lsb = packLow (s.randomBits.getD rnd) := by
    rw [create_spec]
  obtain ⟨d1, d2, d3⟩ :=
    decode_packHigh_any (create s nowMs rnd).1.lastTimestampMs (create s nowMs rnd).1.counter hcnt
  obtain ⟨e1, e2⟩ := decode_packLow (s.randomBits.getD rnd)
  refine ⟨hmsb, hlsb, ?_, ?_, ?_, ?_, ?_⟩
  · rw [hmsb]
    exact d2
  · rw [hlsb]
    exact e1
  · rw [hmsb, d1]
    omega
  · rw [hmsb]
    exact d3
  · rw [hlsb]
    exact e2

/-- Witness for the packing-layout theorem at a concrete call. -/
theorem uuid_packing_layout_witness :
    (create ⟨41, 2, none⟩ 100 77).2.msb =
      (((create ⟨41, 2, none⟩ 100 77).1.lastTimestampMs <<< 16) ||| version_ |||
        (create ⟨41, 2, none⟩ 100 77).1.counter) % 2 ^ 64 ∧
    (create ⟨41, 2, none⟩ 100 77).2.lsb =
      (variant_ ||| ((Option.none).getD 77 &&& randomMask_)) % 2 ^ 64 ∧
    verField (create ⟨41, 2, none⟩ 100 77).2.msb = 8 ∧
    varField (create ⟨41, 2, none⟩ 100 77).2.lsb = 2 ∧
    unix_ts_ms (create ⟨41, 2, none⟩ 100 77).2.msb =
      (create ⟨41, 2, none⟩ 100 77).1.lastTimestampMs ∧
    counterField (create ⟨41, 2, none⟩ 100 77).2.msb =
      (create ⟨41, 2, none⟩ 100 77).1.counter ∧
    randField (create ⟨41, 2, none⟩ 100 77).2.lsb = (Option.none).getD 77 % 2 ^ 62 :=
  uuid_packing_layout ⟨41, 2, none⟩ 100 77 (by decide) (by decide)

/-- Claim C8: create is total: for every generator state and every clock and
random input it returns an identifier, with no error path; the result is
always a valid identifier (version field 8, variant field 10, counter in
its 12-bit range, both halves 64-bit values), and anomalous clock behavior
is absorbed by the state transition rather than surfaced. -/
theorem uuid_create_total_valid (s : GenState) (nowMs rnd : Nat) :
    verField (create s nowMs rnd).2.msb = 8 ∧
    varField (create s nowMs rnd).2.lsb = 2 ∧
    counterField (create s nowMs rnd).2.msb = (create s nowMs rnd).1.counter ∧
    (create s nowMs rnd).1.counter ≤ maxCount_ ∧
    (create s nowMs rnd).2.msb < 2 ^ 64 ∧
    (create s nowMs rnd).2.lsb < 2 ^ 64 := by
  have hcnt : (create s nowMs rnd).1.counter ≤ maxCount_ := by
    rw [create_spec]
    exact rollover_counter_le (tick s nowMs)
  have hmsb : (create s nowMs rnd).2.msb =
      packHigh (create s nowMs rnd).1.lastTimestampMs (create s nowMs rnd).1.counter := by
    rw [create_spec]
  have hlsb : (create s nowMs rnd).2.lsb = packLow (s.randomBits.getD rnd) := by
    rw [create_spec]
  obtain ⟨d1, d2, d3⟩ :=
    decode_packHigh_any (create s nowMs rnd).1.lastTimestampMs (create s nowMs rnd).1.counter hcnt
  obtain ⟨e1, _⟩ := decode_packLow (s.randomBits.getD rnd)
  refine ⟨by rw [hmsb]; exact d2, by rw [hlsb]; exact e1, by rw [hmsb]; exact d3, hcnt, ?_, ?_⟩
  · rw [hmsb]
    unfold packHigh
    exact Nat.mod_lt _ (by norm_num)
  · rw [hlsb]
    unfold packLow
    exact Nat.mod_lt _ (by norm_num)

/-- Claim C6: the bit-layout codec round-trips: for every timestamp below 2^48,
counter at most 4095 and random value below 2^62, decoding the packed high
half yields back the timestamp, the version constant 8 and the counter,
and decoding the packed low half yields the variant value 10 (binary) and
the random value, exactly. -/
theorem uuid_field_roundtrip (ts cnt rnd : Nat)
    (hts : ts < 2 ^ 48) (hcnt : cnt ≤ 4095) (hrnd : rnd < 2 ^ 62) :
    unix_ts_ms (packHigh ts cnt) = ts ∧
    verField (packHigh ts cnt) = 8 ∧
    counterField (packHigh ts cnt) = cnt ∧
    varField (packLow rnd) = 2 ∧
    randField (packLow rnd) = rnd := by
  obtain ⟨d1, d2, d3⟩ := decode_packHigh_any ts cnt hcnt
  obtain ⟨e1, e2⟩ := decode_packLow rnd
  refine ⟨?_, d2, d3, e1, ?_⟩
  · rw [d1]
    omega
  · rw [e2]
    omega

/-- Witness for the round-trip theorem at the spec's own example values:
timestamp 1700000000000, counter 0, random 1. -/
theorem uuid_field_roundtrip_witness :
    unix_ts_ms (packHigh 1700000000000 0) = 1700000000000 ∧
    verField (packHigh 1700000000000 0) = 8 ∧
    counterField (packHigh 1700000000000 0) = 0 ∧
    varField (packLow 1) = 2 ∧
    randField (packLow 1) = 1 :=
  uuid_field_roundtrip 1700000000000 0 1 (by decide) (by decide) (by decide)

/-- Witness for the beyond-tolerance regression theorem: the clock jumps
back from 20000001 to 0 (far beyond the tolerance) and the timestamp field
still does not decrease. -/
theorem uuid_clock_regression_never_backward_witness :
    tick ⟨20000001, 9, some 3⟩ 0 = (20000001, 9 + 1) ∧
    20000001 ≤ (create ⟨20000001, 9, some 3⟩ 0 4).1.lastTimestampMs ∧
    unix_ts_ms (packHigh 20000001 9) ≤
      unix_ts_ms (create ⟨20000001, 9, some 3⟩ 0 4).2.msb :=
  uuid_clock_regression_never_backward ⟨20000001, 9, some 3⟩ 0 4
    (by decide) (by decide) (by decide)

end uuid

namespace uri

/-- Address family of an IP address, from IpAddress.h (enum class Type with
values IpV4, IpV6, Invalid; named IpType here because Type is reserved). -/
inductive IpType where
  | IpV4
  | IpV6
  | Invalid
deriving DecidableEq, Repr

/-- The IpAddress value from IpAddress.h: the address family tag, the byte
representation (a vector of uint8_t: naturals below 256, recorded by the
bytesLt field), and the string representation. -/
structure IpAddress where
  type_ : IpType
  ipBytes_ : List Nat
  ipString_ : String
  bytesLt : ∀ b ∈ ipBytes_, b < 256

/-- Number of bytes in an IPv4 address, from IpAddress.h. -/
def IpV4AddressBytes : Nat := 4

/-- Number of bytes in an IPv6 address, from IpAddress.h. -/
def IpV6AddressBytes : Nat := 16

/-- getBytes from IpAddress.h: returns the byte representation. -/
def getBytes (a : IpAddress) : List Nat := a.ipBytes_

/-- Reinterpretation of an unsigned 8-bit byte as a signed char value (the
reinterpret_cast from unsigned char to the string character type performed
inside getBytesString; char is signed, so values 128..255 map to
-128..-1 while the bit pattern is preserved). -/
def byteAsStrByte (b : Nat) : Int :=
  if b < 128 then (b : Int) else (b : Int) - 256

/-- Reinterpretation of a signed char value back as an unsigned 8-bit
byte (reading a character of the returned string as uint8_t). -/
def strByteAsByte (c : Int) : Nat := (c % 256).toNat

/-- getBytesString from IpAddress.h: builds a string-like container over
the same bytes, reinterpreting each unsigned byte as a (signed) character,
preserving the exact binary data and the length ipBytes_.size(). -/
def getBytesString (a : IpAddress) : List Int :=
  a.ipBytes_.map byteAsStrByte

/-- Reinterpreting a byte below 256 as a signed char and back is the
identity. -/
theorem strByte_roundtrip (b : Nat) (h : b < 256) :
    strByteAsByte (byteAsStrByte b) = b := by
  unfold strByteAsByte byteAsStrByte
  split_ifs with h1 <;> omega

/-- Elementwise form of the byte/char round trip over a list, stated with
total indexing (out-of-range positions give the default on both sides). -/
theorem map_strByte_getD (l : List Nat) (h : ∀ b ∈ l, b < 256) (i : Nat) :
    strByteAsByte ((l.map byteAsStrByte).getD i 0) = l.getD i 0 := by
  induction l generalizing i with
  | nil =>
    simp [List.getD]
    decide
  | cons b bs ih =>
    cases i with
    | zero =>
      simp only [List.map_cons, List.getD_cons_zero]
      exact strByte_roundtrip b (h b (List.mem_cons_self b bs))
    | succ j =>
      simp only [List.map_cons, List.getD_cons_succ]
      exact ih (fun x hx => h x (List.mem_cons_of_mem b hx)) j

/-- Claim C10: for every IpAddress value, getBytesString returns a string-like
container whose length equals the number of bytes returned by getBytes and
whose i-th character, reinterpreted as an unsigned 8-bit value, equals the
i-th byte of getBytes: the exact binary data is preserved (out-of-range
indices agree on the default as well). -/
theorem ipaddress_getBytesString_preserves_bytes (a : IpAddress) :
    (getBytesString a).length = (getBytes a).length ∧
    ∀ i : Nat, strByteAsByte ((getBytesString a).getD i 0) = (getBytes a).getD i 0 := by
  constructor
  · simp [getBytesString, getBytes]
  · intro i
    exact map_strByte_getD a.ipBytes_ a.bytesLt i

end uri

end uprotocol
